import Mathlib

/-!
Shallow embedding of the entity-resolution core of `scripts/entity_registry.py`
(hyperflow). Python strings are modelled as `List Char` (`PyStr`), Python dicts
as insertion-ordered association lists, floats as rationals, and the file
system / YAML layer as explicit oracles returning `Except`.
-/

set_option maxRecDepth 4000

abbrev PyStr := List Char

/-- Python `str.lower()` on a single character (ASCII range, as exercised by the code). -/
def lowerChar (c : Char) : Char := Char.toLower c

/-- Python `str.lower()`. -/
def pyLower (s : PyStr) : PyStr := s.map lowerChar

/-- Python `str.split()` (split on whitespace, dropping empty fields). -/
def splitWords : PyStr → List PyStr
  | [] => []
  | [c] => if c.isWhitespace then [] else [[c]]
  | c :: d :: rest =>
    if c.isWhitespace then splitWords (d :: rest)
    else if d.isWhitespace then [c] :: splitWords (d :: rest)
    else
      match splitWords (d :: rest) with
      | [] => [[c]]
      | w :: ws => (c :: w) :: ws

/-- Python `' '.join(words)`. -/
def joinWords : List PyStr → PyStr
  | [] => []
  | [w] => w
  | w :: ws => w ++ ' ' :: joinWords ws

/-- Python substring test `needle in hay` at a fixed start: `hay` starts with `needle`. -/
def strStarts : PyStr → PyStr → Bool
  | [], _ => true
  | _ :: _, [] => false
  | c :: cs, d :: ds => decide (c = d) && strStarts cs ds

/-- Python substring containment `needle in hay`. -/
def substr (needle : PyStr) : PyStr → Bool
  | [] => strStarts needle []
  | d :: ds => strStarts needle (d :: ds) || substr needle ds

/-- Strip matching elements from the end of a list (Python `while words and words[-1] in S: pop()`). -/
def dropLastWhile (p : PyStr → Bool) (l : List PyStr) : List PyStr :=
  (l.reverse.dropWhile p).reverse

namespace NameNormalizer

/-- `NameNormalizer.TITLES`. -/
def TITLES : List PyStr :=
  ["dr", "dr.", "mr", "mr.", "mrs", "mrs.", "ms", "ms.",
   "prof", "prof.", "professor", "sir", "dame", "rev", "rev."].map String.data

/-- `NameNormalizer.SUFFIXES`. -/
def SUFFIXES : List PyStr :=
  ["jr", "jr.", "sr", "sr.", "ii", "iii", "iv", "v",
   "phd", "ph.d", "ph.d.", "md", "m.d", "m.d.", "esq", "esq."].map String.data

/-- `NameNormalizer.normalize`: lowercase, collapse whitespace, strip leading
titles and trailing suffixes. -/
def normalize (name : PyStr) : PyStr :=
  if name = [] then []
  else
    let words := splitWords (pyLower name)
    let words := words.dropWhile (fun w => decide (w ∈ TITLES))
    let words := dropLastWhile (fun w => decide (w ∈ SUFFIXES)) words
    joinWords words

/-- `NameNormalizer.extract_variants`: the raw name, the normalized form when it
differs from the lowercased name, the "first last" form and the last word when
the normalized form has at least two words; all lowercased, empties dropped. -/
def extract_variants (name : PyStr) : List PyStr :=
  let normalized := normalize name
  let variants := [name] ++ (if normalized ≠ pyLower name then [normalized] else [])
  let words := splitWords normalized
  let variants := variants ++
    (if 2 ≤ words.length then
      [words.headD [] ++ ' ' :: words.getLastD [], words.getLastD []]
     else [])
  (variants.filter (fun v => decide (v ≠ []))).map pyLower

/-- `NameNormalizer.similarity`: 1.0 on equal normal forms, 0.8 on containment,
otherwise the Jaccard index of the word sets (0.0 when a word set is empty). -/
def similarity (name1 name2 : PyStr) : ℚ :=
  let n1 := normalize name1
  let n2 := normalize name2
  if n1 = n2 then 1
  else if substr n1 n2 || substr n2 n1 then 8/10
  else
    let words1 := (splitWords n1).toFinset
    let words2 := (splitWords n2).toFinset
    if words1 = ∅ ∨ words2 = ∅ then 0
    else
      let overlap := ((words1 ∩ words2).card : ℚ)
      let total := ((words1 ∪ words2).card : ℚ)
      if 0 < total then overlap / total else 0

end NameNormalizer

/-- `EntityMatch` (the per-entity record / lookup result). -/
structure EntityMatch where
  name : PyStr
  filepath : PyStr
  entity_type : PyStr
  aliases : List PyStr
  confidence : ℚ
deriving DecidableEq

/-- A Python dict with `PyStr` keys, as an insertion-ordered association list. -/
abbrev PyDict (β : Type) := List (PyStr × β)

/-- An entity index: normalized key → record. -/
abbrev Index := PyDict EntityMatch

/-- Dict lookup `d[k]` / `k in d` (first binding wins; keys are unique when the
dict is built by `dSet`/`dInsertIfAbsent` from `[]`). -/
def dGet {β : Type} : PyDict β → PyStr → Option β
  | [], _ => none
  | (k', v) :: rest, k => if k' = k then some v else dGet rest k

/-- Dict assignment `d[k] = v`: overwrite in place, else append (Python dicts
keep the original insertion position on overwrite). -/
def dSet {β : Type} : PyDict β → PyStr → β → PyDict β
  | [], k, v => [(k, v)]
  | (k', v') :: rest, k, v =>
    if k' = k then (k, v) :: rest else (k', v') :: dSet rest k v

/-- `if k not in d: d[k] = v`. -/
def dInsertIfAbsent {β : Type} (d : PyDict β) (k : PyStr) (v : β) : PyDict β :=
  match dGet d k with
  | some _ => d
  | none => d ++ [(k, v)]

open NameNormalizer in
/-- The index effect of `EntityRegistry._index_entity`: overwrite at the
normalized canonical key, then insert-if-absent at every variant of the
canonical name, every normalized alias, and every variant of each alias.
(The method's final reverse-map line is modelled separately, by `dSet` on
`filepath_to_name` at the registry level.) -/
def index_entity (entity : EntityMatch) (index : Index) : Index :=
  let index := dSet index (normalize entity.name) entity
  let index := (extract_variants entity.name).foldl
    (fun d v => dInsertIfAbsent d v entity) index
  entity.aliases.foldl (fun d alias0 =>
    let d := dInsertIfAbsent d (normalize alias0) entity
    (extract_variants alias0).foldl (fun d v => dInsertIfAbsent d v entity) d) index

/-- Building an index by registering a list of records in scan order. -/
def buildIndex (records : List EntityMatch) : Index :=
  records.foldl (fun d e => index_entity e d) []

open NameNormalizer in
/-- The variant tier of `_find_in_index`: first variant (in generation order)
that is a key of the index. -/
def variantHit (name : PyStr) (index : Index) : Option EntityMatch :=
  (extract_variants name).findSome? (fun v => dGet index v)

open NameNormalizer in
/-- One step of the fuzzy-tier loop of `_find_in_index`: replace the running
best when `similarity(name, key)` strictly exceeds the best score so far. -/
def fuzzyStep (name : PyStr) (best : Option EntityMatch × ℚ) (kv : PyStr × EntityMatch) :
    Option EntityMatch × ℚ :=
  let score := similarity name kv.1
  if best.2 < score then
    (some ⟨kv.2.name, kv.2.filepath, kv.2.entity_type, kv.2.aliases, score⟩, score)
  else best

/-- The fuzzy tier of `_find_in_index`: scan the index in insertion order,
keeping the record whose key's similarity strictly exceeds the best so far
(which starts at `min_confidence`); the kept copy carries the score. -/
def fuzzyBest (name : PyStr) (min_confidence : ℚ) (index : Index) : Option EntityMatch :=
  (index.foldl (fuzzyStep name) (none, min_confidence)).1

open NameNormalizer in
/-- `EntityRegistry._find_in_index`: empty-name guard, then exact tier,
variant tier (confidence forced to 0.9 on a copy), and the fuzzy tier gated
by `min_confidence < 1.0`. -/
def find_in_index (name : PyStr) (index : Index) (min_confidence : ℚ) :
    Option EntityMatch :=
  if name = [] then none
  else
    match dGet index (normalize name) with
    | some m => some m
    | none =>
      match variantHit name index with
      | some m => some ⟨m.name, m.filepath, m.entity_type, m.aliases, 9/10⟩
      | none =>
        if min_confidence < 1 then fuzzyBest name min_confidence index
        else none

/-- `EntityRegistry` in-memory state: the three indexes and the reverse map
(`vault_path` is the configured root used by `get_link`). -/
structure EntityRegistry where
  vault_path : PyStr
  people : Index
  organizations : Index
  concepts : Index
  filepath_to_name : PyDict PyStr
deriving DecidableEq

/-- `EntityRegistry.find_person`. -/
def find_person (reg : EntityRegistry) (name : PyStr) (min_confidence : ℚ) :
    Option EntityMatch :=
  find_in_index name reg.people min_confidence

/-- `EntityRegistry.find_organization`. -/
def find_organization (reg : EntityRegistry) (name : PyStr) (min_confidence : ℚ) :
    Option EntityMatch :=
  find_in_index name reg.organizations min_confidence

/-- `EntityRegistry.find_concept`. -/
def find_concept (reg : EntityRegistry) (name : PyStr) (min_confidence : ℚ) :
    Option EntityMatch :=
  find_in_index name reg.concepts min_confidence

/-- `EntityRegistry.find`: dispatch on the optional type, else try people,
organizations, concepts in order and return the first hit. -/
def find (reg : EntityRegistry) (name : PyStr) (entity_type : Option PyStr)
    (min_confidence : ℚ) : Option EntityMatch :=
  if entity_type = some "person".data then find_person reg name min_confidence
  else if entity_type = some "organization".data then
    find_organization reg name min_confidence
  else if entity_type = some "concept".data then
    find_concept reg name min_confidence
  else
    match find_person reg name min_confidence with
    | some m => some m
    | none =>
      match find_organization reg name min_confidence with
      | some m => some m
      | none => find_concept reg name min_confidence

/-- `EntityRegistry.exists`: `find(name, entity_type) is not None`
(default threshold 0.7). -/
def existsEntity (reg : EntityRegistry) (name : PyStr) (entity_type : Option PyStr) :
    Bool :=
  (find reg name entity_type (7/10)).isSome

/-- Final path component (after the last `/`). -/
def basename (p : PyStr) : PyStr :=
  (p.reverse.takeWhile (fun c => decide (c ≠ '/'))).reverse

/-- `pathlib.Path(p).stem`: the basename without its final extension
(a lone leading dot, as in `.bashrc`, is not an extension). -/
def stem (p : PyStr) : PyStr :=
  let b := basename p
  let extLen := (b.reverse.takeWhile (fun c => decide (c ≠ '.'))).length
  if extLen = b.length then b
  else if extLen + 1 = b.length then b
  else b.take (b.length - (extLen + 1))

/-- `with_suffix('')` applied to a whole path: directories kept, the final
component replaced by its stem. -/
def dropExt (p : PyStr) : PyStr :=
  p.take (p.length - (basename p).length) ++ stem p

/-- `filepath.relative_to(vault_path)`: strip the leading root and separator
when present (the only case the code exercises). -/
def relTo (vault p : PyStr) : PyStr :=
  if strStarts (vault ++ ['/']) p then p.drop (vault.length + 1) else p

/-- `EntityRegistry.get_link`: resolve via `find` (default threshold), then
build `[[path-relative-to-vault-without-extension]]`. -/
def get_link (reg : EntityRegistry) (name : PyStr) (entity_type : Option PyStr) :
    Option PyStr :=
  match find reg name entity_type (7/10) with
  | some m => some ('[' :: '[' :: dropExt (relTo reg.vault_path m.filepath) ++ [']', ']'])
  | none => none

/-- The `aliases` frontmatter value as the code reads it: a single string or a
list of strings. -/
inductive AliasVal where
  | strVal (v : PyStr)
  | listVal (vs : List PyStr)
deriving DecidableEq

/-- The result of `yaml.safe_load` on a frontmatter block, as far as the code
inspects it: a falsy document (`None`, replaced by `{}` via `or {}`), a mapping
(its `aliases` entry plus an opaque blob for the other keys), or a truthy
non-mapping value (on which `.get` raises `AttributeError`). -/
inductive YDoc where
  | nullDoc
  | mapping (aliases : Option AliasVal) (rest : PyStr)
  | nonMapping
deriving DecidableEq

/-- `frontmatter.get('aliases', [])` followed by the `isinstance(aliases, str)`
coercion to a list. -/
def getAliasesList : Option AliasVal → List PyStr
  | none => []
  | some (.strVal v) => [v]
  | some (.listVal vs) => vs

/-- The `aliases` entry of a mapping (or of `{}` for a falsy document). -/
def aliasesOf : YDoc → Option AliasVal
  | .mapping al _ => al
  | _ => none

/-- `frontmatter['aliases'] = aliases` (a falsy document was already replaced
by `{}`). -/
def setAliases : YDoc → List PyStr → YDoc
  | .mapping _ r, vs => .mapping (some (.listVal vs)) r
  | _, vs => .mapping (some (.listVal vs)) []

/-- The file system and YAML layer as oracles: reading and parsing may raise
(`Except.error`), dumping is pure, and `writeOk` says whether `write_text`
succeeds at a path/content pair. -/
structure FileOps where
  readText : PyStr → Except Unit PyStr
  yamlLoad : PyStr → Except Unit YDoc
  yamlDump : YDoc → PyStr
  writeOk : PyStr → PyStr → Bool

/-- The literal `---` frontmatter fence. -/
def dashes : PyStr := "---".data

/-- Python `s.split(sep, 1)` for a nonempty `sep`, as (before, after) around the
leftmost occurrence; `none` when `sep` does not occur. -/
def splitFirst (sep : PyStr) : PyStr → Option (PyStr × PyStr)
  | [] => none
  | c :: rest =>
    if strStarts sep (c :: rest) then some ([], (c :: rest).drop sep.length)
    else
      match splitFirst sep rest with
      | some (a, b) => some (c :: a, b)
      | none => none

/-- `content.split('---', 2)` restricted to the case `len(parts) >= 3`:
the text before the first fence, between the fences, and everything after the
second fence. -/
def split3 (s : PyStr) : Option (PyStr × PyStr × PyStr) :=
  match splitFirst dashes s with
  | none => none
  | some (a, r) =>
    match splitFirst dashes r with
    | none => none
    | some (b, c) => some (a, b, c)

/-- `EntityRegistry._load_entity`: read the file (any read failure yields
`None`); if a frontmatter block parses, take its `aliases` (a YAML syntax
error is caught by the inner handler and leaves `aliases = []`; `.get` on a
truthy non-mapping raises and is caught by the outer handler, yielding
`None`); the canonical name is the file stem, confidence 1.0. -/
def load_entity (ops : FileOps) (filepath : PyStr) (entity_type : PyStr) :
    Option EntityMatch :=
  match ops.readText filepath with
  | .error _ => none
  | .ok content =>
    let aliasesOpt : Option (List PyStr) :=
      if strStarts dashes content then
        match split3 content with
        | some (_, fmStr, _) =>
          match ops.yamlLoad fmStr with
          | .error _ => some []
          | .ok .nullDoc => some []
          | .ok (.mapping al _) => some (getAliasesList al)
          | .ok .nonMapping => none
        | none => some []
      else some []
    match aliasesOpt with
    | none => none
    | some aliases => some ⟨stem filepath, filepath, entity_type, aliases, 1⟩

/-- One directory pass of `EntityRegistry.scan`: skip dot-files, drop records
whose load failed, index the rest and count them. -/
def scanDir (ops : FileOps) (files : List PyStr) (entity_type : PyStr)
    (st : Index × Nat) : Index × Nat :=
  files.foldl (fun st f =>
    if strStarts ['.'] (basename f) then st
    else
      match load_entity ops f entity_type with
      | none => st
      | some e => (index_entity e st.1, st.2 + 1)) st

/-- `EntityRegistry._get_index_for_type` combined with `_index_entity`'s
effect on the registry: re-index the record in the type's index and record
the reverse mapping. -/
def regIndexEntity (reg : EntityRegistry) (entity_type : PyStr) (e : EntityMatch) :
    EntityRegistry :=
  let reg :=
    if entity_type = "person".data then
      { reg with people := index_entity e reg.people }
    else if entity_type = "organization".data then
      { reg with organizations := index_entity e reg.organizations }
    else
      { reg with concepts := index_entity e reg.concepts }
  { reg with filepath_to_name := dSet reg.filepath_to_name e.filepath e.name }

/-- `EntityRegistry.add_alias`. Returns the Python result, the registry state
after the call, and the log of attempted file writes. Every failure (record
not found, unreadable file, missing/short frontmatter, YAML error, `.get` on a
non-mapping, alias already present, failed write) returns `False` without
touching the registry; only a successful write commits the in-memory update
(the updated record re-indexed with its extended alias list). -/
def add_alias (ops : FileOps) (reg : EntityRegistry)
    (name alias0 entity_type : PyStr) :
    Bool × EntityRegistry × List (PyStr × PyStr) :=
  match find reg name (some entity_type) (7/10) with
  | none => (false, reg, [])
  | some m =>
    match ops.readText m.filepath with
    | .error _ => (false, reg, [])
    | .ok content =>
      if strStarts dashes content then
        match split3 content with
        | none => (false, reg, [])
        | some (_, fmStr, rest) =>
          match ops.yamlLoad fmStr with
          | .error _ => (false, reg, [])
          | .ok .nonMapping => (false, reg, [])
          | .ok fm =>
            let aliases := getAliasesList (aliasesOf fm)
            if alias0 ∈ aliases then (false, reg, [])
            else
              let aliases2 := aliases ++ [alias0]
              let fm2 := setAliases fm aliases2
              let newContent := dashes ++ '\n' :: (ops.yamlDump fm2 ++ dashes ++ rest)
              if ops.writeOk m.filepath newContent then
                (true, regIndexEntity reg entity_type { m with aliases := aliases2 },
                  [(m.filepath, newContent)])
              else (false, reg, [(m.filepath, newContent)])
      else (false, reg, [])

/-- Keys a record claims beyond its unconditionally written normalized
canonical key: variants of the canonical name, then, per alias, the
normalized alias and its variants, in the order `_index_entity` visits them. -/
def entityAuxKeys (e : EntityMatch) : List PyStr :=
  NameNormalizer.extract_variants e.name ++
    e.aliases.foldr (fun a ks =>
      (NameNormalizer.normalize a :: NameNormalizer.extract_variants a) ++ ks) []

/-- All keys a record claims, the normalized canonical key first. -/
def entityKeys (e : EntityMatch) : List PyStr :=
  NameNormalizer.normalize e.name :: entityAuxKeys e

/-- `index[k]` when `k ∈ K`, else nothing: the contribution of a block of
insert-if-absent writes of record `e` at the keys `K`. -/
def keyHit (K : List PyStr) (e : EntityMatch) (k : PyStr) : Option EntityMatch :=
  if k ∈ K then some e else none

/-- Most recent record of the scan whose normalized canonical name is `k`. -/
def lastCanon (rs : List EntityMatch) (k : PyStr) : Option EntityMatch :=
  (rs.filter (fun r => decide (NameNormalizer.normalize r.name = k))).getLast?

/-- Concrete record fixtures used by witnesses and counterexamples. -/
def lisaRec : EntityMatch :=
  ⟨"Lisa Chang".data, "people/Lisa Chang.md".data, "person".data, [], 1⟩

def davidRec : EntityMatch :=
  ⟨"David Chang".data, "people/David Chang.md".data, "person".data, [], 1⟩

def sarahRec : EntityMatch :=
  ⟨"Sarah Chen Jr.".data, "people/Sarah Chen Jr.md".data, "person".data, [], 1⟩

def bobRec : EntityMatch :=
  ⟨"Bob Smith".data, "people/Bob Smith.md".data, "person".data, [], 1⟩

/-- A record whose canonical name is only a title: it normalizes to the empty
string, so indexing it makes `""` an index key. -/
def drRec : EntityMatch :=
  ⟨"Dr.".data, "people/Dr.md".data, "person".data, [], 1⟩

/-- A registry whose people index holds `lisaRec` and `davidRec`. -/
def regLD : EntityRegistry :=
  ⟨"vault".data, buildIndex [lisaRec, davidRec], [], [],
    [(lisaRec.filepath, lisaRec.name), (davidRec.filepath, davidRec.name)]⟩

/-- Oracles whose every read raises. -/
def opsFailRead : FileOps :=
  ⟨fun _ => .error (), fun _ => .error (), fun _ => [], fun _ _ => false⟩

/-- Oracles for a file whose frontmatter block is malformed YAML: the read
succeeds, the YAML parse raises. -/
def opsYamlErr : FileOps :=
  ⟨fun _ => .ok ("---\n: bad :\n---\nBody".data), fun _ => .error (),
    fun _ => [], fun _ _ => true⟩

/-- Oracles for Lisa's file already carrying the alias `LC`. -/
def opsLisaLC : FileOps :=
  ⟨fun _ => .ok ("---\naliases:\n- LC\n---\nBody".data),
    fun _ => .ok (.mapping (some (.listVal ["LC".data])) "x".data),
    fun _ => "aliases: [LC]\n".data, fun _ _ => true⟩

/-! ### Dictionary lemmas -/

theorem dGet_append {β : Type} (d d' : PyDict β) (k : PyStr) :
    dGet (d ++ d') k = (dGet d k).or (dGet d' k) := by
  induction d with
  | nil => simp [dGet]
  | cons kv rest ih =>
    obtain ⟨k', v⟩ := kv
    by_cases h : k' = k <;> simp [dGet, h, ih]

theorem dGet_dSet_self {β : Type} (d : PyDict β) (k : PyStr) (v : β) :
    dGet (dSet d k v) k = some v := by
  induction d with
  | nil => simp [dSet, dGet]
  | cons kv rest ih =>
    obtain ⟨k', v'⟩ := kv
    by_cases h : k' = k <;> simp [dSet, dGet, h, ih]

theorem dGet_dSet_ne {β : Type} (d : PyDict β) (k' k : PyStr) (v : β) (h : k' ≠ k) :
    dGet (dSet d k' v) k = dGet d k := by
  induction d with
  | nil => simp [dSet, dGet, h]
  | cons kv rest ih =>
    obtain ⟨k₀, v₀⟩ := kv
    by_cases h0 : k₀ = k'
    · subst h0; simp [dSet, dGet, h, ih]
    · rw [show dSet ((k₀, v₀) :: rest) k' v = (k₀, v₀) :: dSet rest k' v by
        simp [dSet, h0]]
      by_cases h1 : k₀ = k <;> simp [dGet, h1, ih]

theorem dIIA_present {β : Type} (d : PyDict β) (k' : PyStr) (v w : β)
    (h : dGet d k' = some w) : dInsertIfAbsent d k' v = d := by
  unfold dInsertIfAbsent
  rw [h]

theorem dGet_dIIA_absent {β : Type} (d : PyDict β) (k' k : PyStr) (v : β)
    (h : dGet d k' = none) :
    dGet (dInsertIfAbsent d k' v) k =
      (dGet d k).or (if k' = k then some v else none) := by
  unfold dInsertIfAbsent
  rw [h, dGet_append]
  by_cases hk : k' = k <;> simp [dGet, hk]

theorem dGet_foldl_dIIA (ks : List PyStr) (e : EntityMatch) (d : Index) (k : PyStr) :
    dGet (ks.foldl (fun d v => dInsertIfAbsent d v e) d) k =
      (dGet d k).or (keyHit ks e k) := by
  induction ks generalizing d with
  | nil => simp [keyHit]
  | cons k' ks ih =>
    rw [List.foldl_cons, ih]
    cases hp : dGet d k' with
    | some w =>
      rw [dIIA_present d k' e w hp]
      by_cases hk : k' = k
      · subst hk; rw [hp]; simp [Option.or]
      · have hk2 : ¬ k = k' := fun hh => hk hh.symm
        simp [keyHit, hk2]
    | none =>
      rw [dGet_dIIA_absent d k' k e hp]
      by_cases hk : k' = k
      · subst hk
        rw [hp]
        simp [keyHit, Option.or]
      · have hk2 : ¬ k = k' := fun hh => hk hh.symm
        simp [keyHit, hk, hk2, Option.or_assoc]

theorem keyHit_append (K₁ K₂ : List PyStr) (e : EntityMatch) (k : PyStr) :
    (keyHit K₁ e k).or (keyHit K₂ e k) = keyHit (K₁ ++ K₂) e k := by
  by_cases h1 : k ∈ K₁ <;> by_cases h2 : k ∈ K₂ <;> simp [keyHit, h1, h2]

/-! ### Index-construction characterization -/

theorem dGet_mem {β : Type} : ∀ (d : PyDict β) (k : PyStr) (v : β),
    dGet d k = some v → (k, v) ∈ d
  | [], _, _, h => by simp [dGet] at h
  | (k', v') :: rest, k, v, h => by
    by_cases hk : k' = k
    · subst hk
      simp [dGet] at h
      simp [h]
    · simp [dGet, hk] at h
      exact List.mem_cons_of_mem _ (dGet_mem rest k v h)

theorem dGet_alias_block (e : EntityMatch) :
    ∀ (as : List PyStr) (d : Index) (k : PyStr),
    dGet (as.foldl (fun d alias0 =>
      (NameNormalizer.extract_variants alias0).foldl (fun d v => dInsertIfAbsent d v e)
        (dInsertIfAbsent d (NameNormalizer.normalize alias0) e)) d) k =
      (dGet d k).or
        (keyHit (as.foldr (fun a ks =>
          (NameNormalizer.normalize a :: NameNormalizer.extract_variants a) ++ ks) []) e k)
  | [], d, k => by simp [keyHit]
  | a :: as, d, k => by
    rw [List.foldl_cons, dGet_alias_block e as]
    have h2 : dGet (List.foldl (fun d v => dInsertIfAbsent d v e)
        (dInsertIfAbsent d (NameNormalizer.normalize a) e)
        (NameNormalizer.extract_variants a)) k =
        (dGet d k).or
          (keyHit (NameNormalizer.normalize a :: NameNormalizer.extract_variants a) e k) :=
      dGet_foldl_dIIA (NameNormalizer.normalize a :: NameNormalizer.extract_variants a) e d k
    rw [h2, Option.or_assoc, keyHit_append, List.foldr_cons]

theorem dGet_index_entity (e : EntityMatch) (d : Index) (k : PyStr) :
    dGet (index_entity e d) k =
      if NameNormalizer.normalize e.name = k then some e
      else (dGet d k).or (keyHit (entityAuxKeys e) e k) := by
  show dGet (e.aliases.foldl _ ((NameNormalizer.extract_variants e.name).foldl _
    (dSet d (NameNormalizer.normalize e.name) e))) k = _
  rw [dGet_alias_block, dGet_foldl_dIIA]
  by_cases hc : NameNormalizer.normalize e.name = k
  · subst hc
    rw [dGet_dSet_self]
    simp [Option.or]
  · rw [dGet_dSet_ne _ _ _ _ hc, if_neg hc, Option.or_assoc, keyHit_append]
    rfl

theorem dGet_scan_foldl : ∀ (rs : List EntityMatch) (d : Index) (k : PyStr),
    dGet (rs.foldl (fun d e => index_entity e d) d) k =
      match lastCanon rs k with
      | some r => some r
      | none => (dGet d k).or (rs.find? (fun r => decide (k ∈ entityKeys r)))
  | [], d, k => by simp [lastCanon]
  | r :: rs, d, k => by
    rw [List.foldl_cons, dGet_scan_foldl rs (index_entity r d) k]
    cases hL : lastCanon rs k with
    | some r' =>
      have hfil : (rs.filter (fun x => decide (NameNormalizer.normalize x.name = k))) ≠ [] := by
        intro hnil
        rw [lastCanon, hnil] at hL
        simp at hL
      have hcast : lastCanon (r :: rs) k = lastCanon rs k := by
        rw [lastCanon, lastCanon, List.filter_cons]
        by_cases hc : NameNormalizer.normalize r.name = k
        · rw [if_pos (by simp [hc])]
          cases hfc : rs.filter (fun x => decide (NameNormalizer.normalize x.name = k)) with
          | nil => exact absurd hfc hfil
          | cons x xs => exact List.getLast?_cons_cons
        · rw [if_neg (by simp [hc])]
      rw [hcast, hL]
    | none =>
      have hfil : (rs.filter (fun x => decide (NameNormalizer.normalize x.name = k))) = [] := by
        rw [lastCanon] at hL
        exact List.getLast?_eq_none_iff.mp hL
      rw [dGet_index_entity]
      by_cases hc : NameNormalizer.normalize r.name = k
      · have : lastCanon (r :: rs) k = some r := by
          rw [lastCanon, List.filter_cons, hfil]
          simp [hc]
        rw [this, if_pos hc]
        simp [Option.or]
      · have hLc : lastCanon (r :: rs) k = none := by
          rw [lastCanon, List.filter_cons, hfil]
          simp [hc]
        rw [hLc, if_neg hc, Option.or_assoc]
        have hfind : (r :: rs).find? (fun x => decide (k ∈ entityKeys x)) =
            (keyHit (entityAuxKeys r) r k).or (rs.find? (fun x => decide (k ∈ entityKeys x))) := by
          rw [List.find?_cons]
          by_cases hm : k ∈ entityAuxKeys r
          · have : k ∈ entityKeys r := List.mem_cons_of_mem _ hm
            simp [this, keyHit, hm]
          · have : ¬ k ∈ entityKeys r := by
              intro hmem
              rcases List.mem_cons.mp hmem with h1 | h2
              · exact hc h1.symm
              · exact hm h2
            simp [this, keyHit, hm]
        rw [hfind]

/-! ### Fuzzy-tier lemmas -/

theorem fuzzyStep_fold_inv (name : PyStr) (mc : ℚ) :
    ∀ (l : List (PyStr × EntityMatch)) (st : Option EntityMatch × ℚ),
    ((st.1 = none ∧ st.2 = mc) ∨
      (∃ m, st.1 = some m ∧ m.confidence = st.2 ∧ mc < st.2)) →
    (((l.foldl (fuzzyStep name) st).1 = none ∧ (l.foldl (fuzzyStep name) st).2 = mc) ∨
      (∃ m, (l.foldl (fuzzyStep name) st).1 = some m ∧
        m.confidence = (l.foldl (fuzzyStep name) st).2 ∧
        mc < (l.foldl (fuzzyStep name) st).2))
  | [], st, h => h
  | kv :: l, st, h => by
    rw [List.foldl_cons]
    apply fuzzyStep_fold_inv name mc l
    have hge : mc ≤ st.2 := by
      rcases h with ⟨_, h2⟩ | ⟨m, _, _, h3⟩
      · exact h2.ge
      · exact h3.le
    unfold fuzzyStep
    by_cases hlt : st.2 < NameNormalizer.similarity name kv.1
    · right
      refine ⟨⟨kv.2.name, kv.2.filepath, kv.2.entity_type, kv.2.aliases,
          NameNormalizer.similarity name kv.1⟩, by simp [hlt], by simp [hlt], ?_⟩
      have hmc : mc < NameNormalizer.similarity name kv.1 := lt_of_le_of_lt hge hlt
      simpa [hlt] using hmc
    · simpa [hlt] using h

theorem fuzzyBest_some_conf (name : PyStr) (mc : ℚ) (index : Index) (m : EntityMatch)
    (h : fuzzyBest name mc index = some m) : mc < m.confidence := by
  have hinv := fuzzyStep_fold_inv name mc index (none, mc) (Or.inl ⟨rfl, rfl⟩)
  unfold fuzzyBest at h
  rcases hinv with ⟨h1, _⟩ | ⟨m', h1, h2, h3⟩
  · rw [h] at h1
    exact absurd h1 (by simp)
  · rw [h] at h1
    obtain rfl : m = m' := Option.some.inj h1
    rw [h2]
    exact h3

/-! ### Small string lemmas -/

theorem substr_nil_left : ∀ h : PyStr, substr [] h = true
  | [] => rfl
  | _ :: _ => by simp [substr, strStarts]

/-! ### Claim theorems -/

/-- C10: with the empty (falsy) name, `_find_in_index` returns `None` without
consulting any tier, for every index and threshold; hence `find`, `exists` and
`get_link` report no match regardless of the index contents. -/
theorem find_empty_name_returns_none (index : Index) (mc : ℚ)
    (reg : EntityRegistry) (entity_type : Option PyStr) :
    find_in_index [] index mc = none ∧
    find reg [] entity_type mc = none ∧
    existsEntity reg [] entity_type = false ∧
    get_link reg [] entity_type = none := by
  have hfi : ∀ (d : Index) (c : ℚ), find_in_index [] d c = none := by
    intro d c
    simp [find_in_index]
  have hfind : ∀ c, find reg [] entity_type c = none := by
    intro c
    unfold find find_person find_organization find_concept
    simp [hfi]
  refine ⟨hfi _ _, hfind _, ?_, ?_⟩
  · unfold existsEntity
    simp [hfind]
  · unfold get_link
    simp [hfind]

/-- C4 counterexample: `similarity("", "bob")` is 0.8, not 0.0 (the empty
string is a Python substring of every string, so the containment tier fires). -/
theorem similarity_empty_nonzero :
    NameNormalizer.similarity [] ("bob".data) = 8/10 ∧ ((8 : ℚ)/10 ≠ 0) := by
  constructor
  · rfl
  · norm_num

/-- C4 (amended): `similarity(x, x) = 1.0` for every string `x`; and
`similarity("", y)` is 1.0 when `normalize(y)` is empty and 0.8 otherwise
(never 0.0), because the empty string is contained in every string. -/
theorem similarity_self_and_empty :
    (∀ x : PyStr, NameNormalizer.similarity x x = 1) ∧
    (∀ y : PyStr, NameNormalizer.similarity [] y =
      if NameNormalizer.normalize y = [] then 1 else 8/10) := by
  constructor
  · intro x
    simp [NameNormalizer.similarity]
  · intro y
    have hn : NameNormalizer.normalize [] = [] := by simp [NameNormalizer.normalize]
    by_cases h : NameNormalizer.normalize y = []
    · simp [NameNormalizer.similarity, hn, h]
    · have h1 : ¬ ([] = NameNormalizer.normalize y) := fun hh => h hh.symm
      simp [NameNormalizer.similarity, hn, h1, h, substr_nil_left]

/-- C8: the `min_confidence` threshold gates only the fuzzy tier: with
threshold 0.95, a name whose variant (but not normalized form) is a key still
returns a 0.9-confidence match, strictly below the requested threshold. -/
theorem variant_match_below_threshold :
    find_in_index ("Melissa Chang".data) (buildIndex [lisaRec]) (19/20) =
      some ⟨"Lisa Chang".data, "people/Lisa Chang.md".data, "person".data, [], 9/10⟩ ∧
    (9 : ℚ)/10 < 19/20 := by
  constructor
  · rfl
  · norm_num

/-- C1 counterexample: the tier description is not true of *every* name. A
record named `Dr.` normalizes to the empty string, so after indexing it `""`
is a key whose stored record is that record; yet `_find_in_index` with the
empty name returns `None`, not the stored record, because the falsy-name
guard fires before the exact tier. -/
theorem exact_tier_empty_name_counterexample :
    dGet (buildIndex [drRec]) (NameNormalizer.normalize []) = some drRec ∧
    find_in_index [] (buildIndex [drRec]) (7/10) = none :=
  ⟨rfl, rfl⟩

/-- C1 (amended): for every index and every **nonempty** name,
`_find_in_index` proceeds in tiers: when `normalize(name)` is a key, it
returns the stored record itself (and that record has confidence 1.0 whenever
the index stores only confidence-1.0 records, as scan-built indexes do);
otherwise, when some variant (tried in generation order) is a key, it returns
a copy of the matched record equal in name, location, type and aliases, with
confidence forced to 0.9. For the empty name the guard returns `None` first,
even when `normalize("")` is an index key. -/
theorem find_in_index_tiers (index : Index) (name : PyStr) (mc : ℚ)
    (h : name ≠ []) :
    (∀ m, dGet index (NameNormalizer.normalize name) = some m →
      find_in_index name index mc = some m) ∧
    (dGet index (NameNormalizer.normalize name) = none →
      ∀ m, variantHit name index = some m →
        find_in_index name index mc =
          some ⟨m.name, m.filepath, m.entity_type, m.aliases, 9/10⟩) ∧
    (∀ m, (∀ kv ∈ index, kv.2.confidence = 1) →
      dGet index (NameNormalizer.normalize name) = some m → m.confidence = 1) := by
  refine ⟨?_, ?_, ?_⟩
  · intro m hm
    simp only [find_in_index, if_neg h, hm]
  · intro hnone m hv
    simp only [find_in_index, if_neg h, hnone, hv]
  · intro m hall hm
    exact hall (NameNormalizer.normalize name, m) (dGet_mem index _ m hm)

/-- C1 witness: both tiers exercised with their antecedents discharged
against the index built from `lisaRec`: the exact query `Lisa Chang` hits
the normalized key and returns the stored record, and the query
`Melissa Chang` misses the exact tier, hits the `chang` variant key, and
returns the 0.9-confidence copy. -/
theorem find_in_index_tiers_witness :
    (("Lisa Chang".data : PyStr) ≠ []) ∧
    dGet (buildIndex [lisaRec]) (NameNormalizer.normalize ("Lisa Chang".data)) =
      some lisaRec ∧
    find_in_index ("Lisa Chang".data) (buildIndex [lisaRec]) (7/10) = some lisaRec ∧
    (("Melissa Chang".data : PyStr) ≠ []) ∧
    dGet (buildIndex [lisaRec]) (NameNormalizer.normalize ("Melissa Chang".data)) =
      none ∧
    variantHit ("Melissa Chang".data) (buildIndex [lisaRec]) = some lisaRec ∧
    find_in_index ("Melissa Chang".data) (buildIndex [lisaRec]) (7/10) =
      some ⟨lisaRec.name, lisaRec.filepath, lisaRec.entity_type, lisaRec.aliases,
        9/10⟩ :=
  ⟨by decide, rfl,
    (find_in_index_tiers (buildIndex [lisaRec]) ("Lisa Chang".data) (7/10)
      (by decide)).1 lisaRec rfl,
    by decide, rfl, rfl,
    (find_in_index_tiers (buildIndex [lisaRec]) ("Melissa Chang".data) (7/10)
      (by decide)).2.1 rfl lisaRec rfl⟩

/-- C3 counterexample: `find("sarah chen", min_confidence=1.0)` against the
index built from the single record `Sarah Chen Jr.` does **not** return
`None`: `Sarah Chen Jr.` normalizes to `sarah chen`, so the exact tier
already matches. -/
theorem fuzzy_gate_example_false :
    (find_in_index ("sarah chen".data) (buildIndex [sarahRec]) 1).isSome = true := by
  have hsome : find_in_index ("sarah chen".data) (buildIndex [sarahRec]) 1 =
      some sarahRec := rfl
  rw [hsome]
  rfl

/-- C3 (amended): the fuzzy tier runs only when `min_confidence < 1.0`; a
fuzzy result's score strictly exceeds `min_confidence`, and a key whose score
merely ties (or falls below) the running best score never displaces it — the
scan behaves as if that key were absent, so the first-encountered key wins
ties. But `find("sarah chen", 1.0)` against an index built from only
`Sarah Chen Jr.` returns that record through the exact tier (its name
normalizes to `sarah chen`), while against an index with no exact/variant
overlap (only `Bob Smith`) it returns `None`, the fuzzy tier being
disabled. -/
theorem fuzzy_tier_gating :
    (∀ (name : PyStr) (index : Index) (mc : ℚ),
      ¬ mc < 1 →
      dGet index (NameNormalizer.normalize name) = none →
      variantHit name index = none →
      find_in_index name index mc = none) ∧
    (∀ (name : PyStr) (index : Index) (mc : ℚ) (m : EntityMatch),
      dGet index (NameNormalizer.normalize name) = none →
      variantHit name index = none →
      find_in_index name index mc = some m → mc < m.confidence) ∧
    (∀ (name : PyStr) (mc : ℚ) (l₁ l₂ : Index) (kv : PyStr × EntityMatch),
      NameNormalizer.similarity name kv.1 ≤
        (l₁.foldl (fuzzyStep name) (none, mc)).2 →
      fuzzyBest name mc (l₁ ++ kv :: l₂) = fuzzyBest name mc (l₁ ++ l₂)) ∧
    find_in_index ("sarah chen".data) (buildIndex [sarahRec]) 1 = some sarahRec ∧
    find_in_index ("sarah chen".data) (buildIndex [bobRec]) 1 = none := by
  refine ⟨?_, ?_, ?_, rfl, by rfl⟩
  · intro name index mc hmc hdg hv
    by_cases hn : name = []
    · simp only [find_in_index, if_pos hn]
    · simp only [find_in_index, if_neg hn, hdg, hv, if_neg hmc]
  · intro name index mc m hdg hv hfind
    by_cases hn : name = []
    · simp only [find_in_index, if_pos hn] at hfind
      exact absurd hfind (by simp)
    · simp only [find_in_index, if_neg hn, hdg, hv] at hfind
      by_cases hmc : mc < 1
      · rw [if_pos hmc] at hfind
        exact fuzzyBest_some_conf name mc index m hfind
      · rw [if_neg hmc] at hfind
        exact absurd hfind (by simp)
  · intro name mc l₁ l₂ kv hle
    unfold fuzzyBest
    rw [List.foldl_append, List.foldl_append, List.foldl_cons]
    have hstep : fuzzyStep name (l₁.foldl (fuzzyStep name) (none, mc)) kv =
        l₁.foldl (fuzzyStep name) (none, mc) := by
      simp only [fuzzyStep]
      rw [if_neg (not_lt.mpr hle)]
    rw [hstep]

/-- C2: after registering any scan sequence, the normalized canonical key of a
record whose canonical key is claimed by no later record resolves to that
record (last write wins at the canonical key); every key that is nobody's
normalized canonical key resolves to the first record that claimed it
(insert-if-absent); and an exact query for such a record's full canonical name
returns that record regardless of the order of colliding records. -/
theorem index_last_write_wins (l₁ l₂ : List EntityMatch) (r : EntityMatch)
    (h : ∀ r' ∈ l₂, NameNormalizer.normalize r'.name ≠ NameNormalizer.normalize r.name) :
    dGet (buildIndex (l₁ ++ r :: l₂)) (NameNormalizer.normalize r.name) = some r ∧
    (∀ k, (∀ r' ∈ l₁ ++ r :: l₂, NameNormalizer.normalize r'.name ≠ k) →
      dGet (buildIndex (l₁ ++ r :: l₂)) k =
        (l₁ ++ r :: l₂).find? (fun r' => decide (k ∈ entityKeys r'))) ∧
    (r.name ≠ [] → ∀ mc : ℚ,
      find_in_index r.name (buildIndex (l₁ ++ r :: l₂)) mc = some r) := by
  have hcanon : dGet (buildIndex (l₁ ++ r :: l₂)) (NameNormalizer.normalize r.name) =
      some r := by
    rw [buildIndex, dGet_scan_foldl]
    have hlast : lastCanon (l₁ ++ r :: l₂) (NameNormalizer.normalize r.name) = some r := by
      rw [lastCanon, List.filter_append, List.filter_cons]
      rw [if_pos (by simp)]
      have hl2 : l₂.filter
          (fun x => decide (NameNormalizer.normalize x.name =
            NameNormalizer.normalize r.name)) = [] :=
        List.filter_eq_nil_iff.mpr (by simpa using h)
      rw [hl2, List.getLast?_concat]
    rw [hlast]
  refine ⟨hcanon, ?_, ?_⟩
  · intro k hk
    rw [buildIndex, dGet_scan_foldl]
    have hlast : lastCanon (l₁ ++ r :: l₂) k = none := by
      rw [lastCanon]
      rw [List.filter_eq_nil_iff.mpr (by simpa using hk)]
      rfl
    rw [hlast]
    simp [dGet]
  · intro hname mc
    simp only [find_in_index, if_neg hname, hcanon]

/-- C2 witness: `David Chang` scanned before `Lisa Chang`; the exact query for
`Lisa Chang` resolves to Lisa's record even though David's record claimed the
shared `chang` variant key first. -/
theorem index_last_write_wins_witness :
    (∀ r' ∈ ([] : List EntityMatch),
      NameNormalizer.normalize r'.name ≠ NameNormalizer.normalize lisaRec.name) ∧
    (dGet (buildIndex ([davidRec] ++ lisaRec :: []))
        (NameNormalizer.normalize lisaRec.name) = some lisaRec ∧
    (∀ k, (∀ r' ∈ [davidRec] ++ lisaRec :: [],
        NameNormalizer.normalize r'.name ≠ k) →
      dGet (buildIndex ([davidRec] ++ lisaRec :: [])) k =
        ([davidRec] ++ lisaRec :: []).find? (fun r' => decide (k ∈ entityKeys r'))) ∧
    (lisaRec.name ≠ [] → ∀ mc : ℚ,
      find_in_index lisaRec.name (buildIndex ([davidRec] ++ lisaRec :: [])) mc =
        some lisaRec)) :=
  ⟨by simp, index_last_write_wins [davidRec] [] lisaRec (by simp)⟩

/-- Helper for C5: every arm of `add_alias` either reports `True` or returns
the registry untouched. -/
theorem add_alias_cases (ops : FileOps) (reg : EntityRegistry)
    (name alias0 entity_type : PyStr) :
    (add_alias ops reg name alias0 entity_type).1 = true ∨
    (add_alias ops reg name alias0 entity_type).2.1 = reg := by
  unfold add_alias
  repeat' split
  all_goals dsimp only
  all_goals repeat' split
  all_goals first | (left; rfl) | (right; rfl)

/-- C5: `add_alias` returns `False` when `find` resolves nothing, and every
`False` return leaves the in-memory registry (all three indexes, the reverse
map, and therefore the matched record's stored aliases) unchanged; the
embedding is a total function over the error-returning oracles, so no
exception escapes. -/
theorem add_alias_fail_closed (ops : FileOps) (reg : EntityRegistry)
    (name alias0 entity_type : PyStr) :
    (find reg name (some entity_type) (7/10) = none →
      (add_alias ops reg name alias0 entity_type).1 = false) ∧
    ((add_alias ops reg name alias0 entity_type).1 = false →
      (add_alias ops reg name alias0 entity_type).2.1 = reg) := by
  constructor
  · intro hf
    simp only [add_alias, hf]
  · intro hfalse
    rcases add_alias_cases ops reg name alias0 entity_type with ht | hr
    · rw [hfalse] at ht
      exact absurd ht (by simp)
    · exact hr

/-- C5 witness: an unreadable record file makes `add_alias` fail closed with
the registry untouched. -/
theorem add_alias_fail_closed_witness :
    (add_alias opsFailRead regLD ("Lisa Chang".data) ("LC".data) ("person".data)).1
      = false ∧
    (add_alias opsFailRead regLD ("Lisa Chang".data) ("LC".data) ("person".data)).2.1
      = regLD :=
  ⟨by rfl, (add_alias_fail_closed opsFailRead regLD _ _ _).2 (by rfl)⟩

/-- C6 counterexample: a record whose frontmatter is malformed YAML (the YAML
parse raises) is **not** omitted: the inner handler leaves it with empty
aliases, and the scan indexes and counts it. -/
theorem malformed_yaml_record_still_indexed :
    load_entity opsYamlErr ("people/Lisa Chang.md".data) ("person".data) =
      some ⟨"Lisa Chang".data, "people/Lisa Chang.md".data, "person".data, [], 1⟩ ∧
    (scanDir opsYamlErr ["people/Lisa Chang.md".data] ("person".data) ([], 0)).2 = 1 :=
  ⟨rfl, rfl⟩

/-- C6 (amended): a record whose file is unreadable (or whose metadata fails
outside the YAML-error handler, e.g. a truthy non-mapping document) loads as
nothing, is omitted and excluded from the count while the scan continues over
the remaining files; the per-type count is exactly the number of successfully
loaded non-hidden files. A YAML syntax error, however, is caught by the inner
handler: the record is kept with empty aliases and still counted. -/
theorem scan_skips_failed_loads :
    (∀ (ops : FileOps) (fp et : PyStr), ops.readText fp = .error () →
      load_entity ops fp et = none) ∧
    (∀ (ops : FileOps) (files1 files2 : List PyStr) (f et : PyStr)
      (st : Index × Nat),
      load_entity ops f et = none →
      scanDir ops (files1 ++ f :: files2) et st =
        scanDir ops (files1 ++ files2) et st) ∧
    (∀ (ops : FileOps) (files : List PyStr) (et : PyStr) (st : Index × Nat),
      (scanDir ops files et st).2 = st.2 +
        (files.filter (fun f => !(strStarts ['.'] (basename f)) &&
          (load_entity ops f et).isSome)).length) := by
  refine ⟨?_, ?_, ?_⟩
  · intro ops fp et h
    simp only [load_entity, h]
  · intro ops files1 files2 f et st hload
    unfold scanDir
    rw [List.foldl_append, List.foldl_append, List.foldl_cons]
    congr 1
    by_cases hdot : strStarts ['.'] (basename f) = true
    · simp [hdot]
    · simp [hdot, hload]
  · intro ops files et st
    induction files generalizing st with
    | nil => simp [scanDir]
    | cons f fs ih =>
      unfold scanDir at ih ⊢
      rw [List.foldl_cons, List.filter_cons]
      by_cases hdot : strStarts ['.'] (basename f) = true
      · rw [if_pos hdot, ih]
        simp [hdot]
      · rw [if_neg hdot]
        cases hload : load_entity ops f et with
        | none =>
          rw [ih]
          simp [hdot, hload]
        | some e =>
          rw [ih]
          simp only [hdot, hload]
          simp [Nat.add_comm, Nat.add_assoc, Nat.add_left_comm]

/-- C9: when the alias is already present (as an exact string) in the resolved
record's persisted aliases list, `add_alias` performs no write, commits no
index update, and returns `False`. -/
theorem add_alias_existing_alias_returns_false (ops : FileOps)
    (reg : EntityRegistry) (name alias0 entity_type : PyStr) (m : EntityMatch)
    (content pre fmStr rest : PyStr) (fm : YDoc)
    (h1 : find reg name (some entity_type) (7/10) = some m)
    (h2 : ops.readText m.filepath = .ok content)
    (h3 : strStarts dashes content = true)
    (h4 : split3 content = some (pre, fmStr, rest))
    (h5 : ops.yamlLoad fmStr = .ok fm)
    (h6 : fm ≠ .nonMapping)
    (h7 : alias0 ∈ getAliasesList (aliasesOf fm)) :
    add_alias ops reg name alias0 entity_type = (false, reg, []) := by
  cases fm with
  | nonMapping => exact absurd rfl h6
  | nullDoc => simp [aliasesOf, getAliasesList] at h7
  | mapping al rest2 =>
    simp only [add_alias, h1, h2, if_pos h3, h4, h5]
    rw [if_pos h7]

/-- C9 witness: Lisa's file already lists the alias `LC`; asking to add `LC`
again returns `False` with no write and no registry change. -/
theorem add_alias_existing_alias_witness :
    find regLD ("Lisa Chang".data) (some ("person".data)) (7/10) = some lisaRec ∧
    opsLisaLC.readText lisaRec.filepath =
      .ok ("---\naliases:\n- LC\n---\nBody".data) ∧
    strStarts dashes ("---\naliases:\n- LC\n---\nBody".data) = true ∧
    split3 ("---\naliases:\n- LC\n---\nBody".data) =
      some ([], "\naliases:\n- LC\n".data, "\nBody".data) ∧
    opsLisaLC.yamlLoad ("\naliases:\n- LC\n".data) =
      .ok (.mapping (some (.listVal ["LC".data])) ("x".data)) ∧
    (YDoc.mapping (some (.listVal ["LC".data])) ("x".data)) ≠ .nonMapping ∧
    ("LC".data ∈ getAliasesList
      (aliasesOf (YDoc.mapping (some (.listVal ["LC".data])) ("x".data)))) ∧
    add_alias opsLisaLC regLD ("Lisa Chang".data) ("LC".data) ("person".data) =
      (false, regLD, []) := by
  refine ⟨rfl, rfl, by decide, by decide, rfl, by decide, by decide, ?_⟩
  exact add_alias_existing_alias_returns_false opsLisaLC regLD
    ("Lisa Chang".data) ("LC".data) ("person".data) lisaRec
    ("---\naliases:\n- LC\n---\nBody".data) [] ("\naliases:\n- LC\n".data)
    ("\nBody".data) (.mapping (some (.listVal ["LC".data])) ("x".data))
    rfl rfl (by decide) (by decide) rfl (by decide) (by decide)

/-! ### Lemmas towards idempotence of `normalize` (C7) -/

theorem toLower_eq_self (c : Char) (h : ¬ (c.toNat ≥ 65 ∧ c.toNat ≤ 90)) :
    Char.toLower c = c := if_neg h

theorem toLower_eq_ofNat (c : Char) (h : c.toNat ≥ 65 ∧ c.toNat ≤ 90) :
    Char.toLower c = Char.ofNat (c.toNat + 32) := if_pos h

theorem ofNat_toNat_valid (n : ℕ) (hv : Nat.isValidChar n) :
    (Char.ofNat n).toNat = n := by
  unfold Char.ofNat
  rw [dif_pos hv]
  rfl

theorem lowerChar_idem (c : Char) : lowerChar (lowerChar c) = lowerChar c := by
  unfold lowerChar
  by_cases h : c.toNat ≥ 65 ∧ c.toNat ≤ 90
  · have ht : (Char.ofNat (c.toNat + 32)).toNat = c.toNat + 32 :=
      ofNat_toNat_valid _ (Or.inl (by omega))
    rw [toLower_eq_ofNat c h]
    exact toLower_eq_self _ (by rw [ht]; omega)
  · rw [toLower_eq_self c h]
    exact toLower_eq_self c h

theorem splitWords_sound : ∀ s : PyStr, ∀ w ∈ splitWords s,
    w ≠ [] ∧ ∀ c ∈ w, c.isWhitespace = false ∧ c ∈ s
  | [], w, hw => by simp [splitWords] at hw
  | [c], w, hw => by
    by_cases h : c.isWhitespace = true
    · simp [splitWords, h] at hw
    · simp [splitWords, h] at hw
      subst hw
      refine ⟨by simp, ?_⟩
      intro c' hc'
      simp at hc'
      subst hc'
      exact ⟨by simpa using h, by simp⟩
  | c :: d :: rest, w, hw => by
    have ih := splitWords_sound (d :: rest)
    by_cases h1 : c.isWhitespace = true
    · rw [show splitWords (c :: d :: rest) = splitWords (d :: rest) by
        rw [splitWords, if_pos h1]] at hw
      obtain ⟨hne, hall⟩ := ih w hw
      exact ⟨hne, fun c' hc' => ⟨(hall c' hc').1,
        List.mem_cons_of_mem c (hall c' hc').2⟩⟩
    · by_cases h2 : d.isWhitespace = true
      · rw [show splitWords (c :: d :: rest) = [c] :: splitWords (d :: rest) by
          rw [splitWords, if_neg h1, if_pos h2]] at hw
        rcases List.mem_cons.mp hw with rfl | hw'
        · refine ⟨by simp, ?_⟩
          intro c' hc'
          simp at hc'
          subst hc'
          exact ⟨by simpa using h1, by simp⟩
        · obtain ⟨hne, hall⟩ := ih w hw'
          exact ⟨hne, fun c' hc' => ⟨(hall c' hc').1,
            List.mem_cons_of_mem c (hall c' hc').2⟩⟩
      · cases hrec : splitWords (d :: rest) with
        | nil =>
          rw [show splitWords (c :: d :: rest) = [[c]] by
            rw [splitWords, if_neg h1, if_neg h2, hrec]] at hw
          simp at hw
          subst hw
          refine ⟨by simp, ?_⟩
          intro c' hc'
          simp at hc'
          subst hc'
          exact ⟨by simpa using h1, by simp⟩
        | cons w₀ ws₀ =>
          rw [show splitWords (c :: d :: rest) = (c :: w₀) :: ws₀ by
            rw [splitWords, if_neg h1, if_neg h2, hrec]] at hw
          rcases List.mem_cons.mp hw with rfl | hw'
          · refine ⟨by simp, ?_⟩
            intro c' hc'
            rcases List.mem_cons.mp hc' with rfl | hc''
            · exact ⟨by simpa using h1, by simp⟩
            · have := (ih w₀ (by rw [hrec]; simp)).2 c' hc''
              exact ⟨this.1, List.mem_cons_of_mem c this.2⟩
          · obtain ⟨hne, hall⟩ := ih w (by rw [hrec]; exact List.mem_cons_of_mem w₀ hw')
            exact ⟨hne, fun c' hc' => ⟨(hall c' hc').1,
              List.mem_cons_of_mem c (hall c' hc').2⟩⟩

theorem splitWords_single : ∀ w : PyStr, w ≠ [] →
    (∀ c ∈ w, c.isWhitespace = false) → splitWords w = [w]
  | [], h, _ => absurd rfl h
  | [c], _, hw => by simp [splitWords, hw c (by simp)]
  | c :: d :: rest, _, hw => by
    have ih := splitWords_single (d :: rest) (by simp)
      (fun x hx => hw x (List.mem_cons_of_mem c hx))
    have h1 : c.isWhitespace = false := hw c (by simp)
    have h2 : d.isWhitespace = false := hw d (by simp)
    rw [splitWords, if_neg (by simp [h1]), if_neg (by simp [h2]), ih]

theorem splitWords_space_cons : ∀ s : PyStr, splitWords (' ' :: s) = splitWords s
  | [] => by simp [splitWords]
  | d :: rest => by
    rw [splitWords, if_pos (by decide)]

theorem splitWords_word_sep : ∀ (w : PyStr), w ≠ [] →
    (∀ c ∈ w, c.isWhitespace = false) →
    ∀ s : PyStr, splitWords (w ++ ' ' :: s) = w :: splitWords s
  | [], h, _, _ => absurd rfl h
  | [c], _, hw, s => by
    have h1 : c.isWhitespace = false := hw c (by simp)
    show splitWords (c :: ' ' :: s) = [c] :: splitWords s
    rw [splitWords, if_neg (by simp [h1]), if_pos (by decide), splitWords_space_cons]
  | c :: c' :: w', _, hw, s => by
    have ih := splitWords_word_sep (c' :: w') (by simp)
      (fun x hx => hw x (List.mem_cons_of_mem c hx)) s
    have h1 : c.isWhitespace = false := hw c (by simp)
    have h2 : c'.isWhitespace = false := hw c' (by simp)
    show splitWords (c :: c' :: (w' ++ ' ' :: s)) = (c :: c' :: w') :: splitWords s
    rw [splitWords, if_neg (by simp [h1]), if_neg (by simp [h2])]
    rw [show c' :: (w' ++ ' ' :: s) = (c' :: w') ++ ' ' :: s from rfl, ih]

theorem splitWords_joinWords : ∀ ws : List PyStr,
    (∀ w ∈ ws, w ≠ [] ∧ ∀ c ∈ w, c.isWhitespace = false) →
    splitWords (joinWords ws) = ws
  | [], _ => rfl
  | [w], h => splitWords_single w (h w (by simp)).1 (h w (by simp)).2
  | w :: w' :: ws, h => by
    have hw := h w (by simp)
    have ih := splitWords_joinWords (w' :: ws)
      (fun x hx => h x (List.mem_cons_of_mem w hx))
    rw [show joinWords (w :: w' :: ws) = w ++ ' ' :: joinWords (w' :: ws) from rfl,
      splitWords_word_sep w hw.1 hw.2, ih]

theorem map_eq_self_of_fixed {f : Char → Char} : ∀ l : List Char,
    (∀ c ∈ l, f c = c) → l.map f = l
  | [], _ => rfl
  | c :: l, h => by
    rw [List.map_cons, h c (by simp),
      map_eq_self_of_fixed l (fun x hx => h x (List.mem_cons_of_mem c hx))]

theorem pyLower_joinWords_fixed : ∀ ws : List PyStr,
    (∀ w ∈ ws, ∀ c ∈ w, lowerChar c = c) →
    pyLower (joinWords ws) = joinWords ws
  | [], _ => rfl
  | [w], h => map_eq_self_of_fixed w (h w (by simp))
  | w :: w' :: ws, h => by
    have ih := pyLower_joinWords_fixed (w' :: ws)
      (fun x hx => h x (List.mem_cons_of_mem w hx))
    have hw : List.map lowerChar w = w := map_eq_self_of_fixed w (h w (by simp))
    have hsp : lowerChar ' ' = ' ' := by decide
    show List.map lowerChar (w ++ ' ' :: joinWords (w' :: ws)) =
      w ++ ' ' :: joinWords (w' :: ws)
    rw [List.map_append, List.map_cons, hw, hsp]
    exact congrArg (fun t => w ++ ' ' :: t) ih

theorem dropWhile_head_false {α : Type} (p : α → Bool) :
    ∀ (l : List α) (a : α) (t : List α), l.dropWhile p = a :: t → p a = false
  | [], a, t, h => by simp [List.dropWhile] at h
  | b :: l, a, t, h => by
    by_cases hb : p b = true
    · rw [List.dropWhile_cons, if_pos hb] at h
      exact dropWhile_head_false p l a t h
    · rw [List.dropWhile_cons, if_neg hb] at h
      injection h with h1 h2
      subst h1
      simpa using hb

theorem dropWhile_eq_self_of_head_false {α : Type} (p : α → Bool) (l : List α)
    (h : ∀ a t, l = a :: t → p a = false) : l.dropWhile p = l := by
  cases l with
  | nil => rfl
  | cons a t =>
    rw [List.dropWhile_cons, if_neg (by simp [h a t rfl])]

theorem dropWhile_idem {α : Type} (p : α → Bool) (l : List α) :
    (l.dropWhile p).dropWhile p = l.dropWhile p := by
  apply dropWhile_eq_self_of_head_false
  intro a t h
  exact dropWhile_head_false p l a t h

theorem dropLastWhile_idem (p : PyStr → Bool) (l : List PyStr) :
    dropLastWhile p (dropLastWhile p l) = dropLastWhile p l := by
  simp [dropLastWhile, List.reverse_reverse, dropWhile_idem]

theorem dropLastWhile_prefix_decomp (p : PyStr → Bool) (l : List PyStr) :
    ∃ t, l = dropLastWhile p l ++ t := by
  refine ⟨(l.reverse.takeWhile p).reverse, ?_⟩
  rw [dropLastWhile]
  conv_lhs => rw [← l.reverse_reverse, ← List.takeWhile_append_dropWhile p l.reverse]
  rw [List.reverse_append]

theorem mem_of_mem_dropWhile {α : Type} (p : α → Bool) :
    ∀ (l : List α) (a : α), a ∈ l.dropWhile p → a ∈ l
  | [], a, h => by simp [List.dropWhile] at h
  | b :: l, a, h => by
    by_cases hb : p b = true
    · rw [List.dropWhile_cons, if_pos hb] at h
      exact List.mem_cons_of_mem b (mem_of_mem_dropWhile p l a h)
    · rw [List.dropWhile_cons, if_neg hb] at h
      exact h

theorem mem_of_mem_dropLastWhile (p : PyStr → Bool) (l : List PyStr) (w : PyStr)
    (h : w ∈ dropLastWhile p l) : w ∈ l := by
  rw [dropLastWhile, List.mem_reverse] at h
  exact List.mem_reverse.mp (mem_of_mem_dropWhile p l.reverse w h)

theorem joinWords_ne_nil : ∀ (w : PyStr) (t : List PyStr), w ≠ [] →
    joinWords (w :: t) ≠ []
  | [], _, h => absurd rfl h
  | c :: w', [], _ => by simp [joinWords]
  | c :: w', t₀ :: t', _ => by simp [joinWords]

open NameNormalizer in
/-- C7: `NameNormalizer.normalize` is idempotent:
`normalize(normalize(x)) = normalize(x)` for every string `x`. -/
theorem normalize_idempotent (x : PyStr) :
    NameNormalizer.normalize (NameNormalizer.normalize x) =
      NameNormalizer.normalize x := by
  by_cases hx : x = []
  · rw [hx]
    rfl
  · have hnx : NameNormalizer.normalize x =
        joinWords (dropLastWhile (fun w => decide (w ∈ SUFFIXES))
          ((splitWords (pyLower x)).dropWhile (fun w => decide (w ∈ TITLES)))) := by
      simp only [NameNormalizer.normalize, if_neg hx]
    obtain ⟨ws, hws⟩ : ∃ ws,
        dropLastWhile (fun w => decide (w ∈ SUFFIXES))
          ((splitWords (pyLower x)).dropWhile (fun w => decide (w ∈ TITLES))) = ws :=
      ⟨_, rfl⟩
    rw [hws] at hnx
    have hmem : ∀ w ∈ ws, w ∈ splitWords (pyLower x) := by
      intro w hw
      rw [← hws] at hw
      exact mem_of_mem_dropWhile _ _ w (mem_of_mem_dropLastWhile _ _ w hw)
    have hWF : ∀ w ∈ ws, w ≠ [] ∧ ∀ c ∈ w, c.isWhitespace = false := by
      intro w hw
      obtain ⟨h1, h2⟩ := splitWords_sound (pyLower x) w (hmem w hw)
      exact ⟨h1, fun c hc => (h2 c hc).1⟩
    have hLow : ∀ w ∈ ws, ∀ c ∈ w, lowerChar c = c := by
      intro w hw c hc
      have hcs : c ∈ pyLower x :=
        ((splitWords_sound (pyLower x) w (hmem w hw)).2 c hc).2
      obtain ⟨c₀, -, rfl⟩ := List.mem_map.mp hcs
      exact lowerChar_idem c₀
    cases ws with
    | nil =>
      rw [hnx]
      rfl
    | cons w t =>
      have hwne : w ≠ [] := (hWF w (by simp)).1
      have hne : joinWords (w :: t) ≠ [] := joinWords_ne_nil w t hwne
      have hlow2 : pyLower (joinWords (w :: t)) = joinWords (w :: t) :=
        pyLower_joinWords_fixed (w :: t) hLow
      have hsj : splitWords (joinWords (w :: t)) = w :: t :=
        splitWords_joinWords (w :: t) hWF
      have hT : (w :: t).dropWhile (fun v => decide (v ∈ TITLES)) = w :: t := by
        apply dropWhile_eq_self_of_head_false
        intro a s hcons
        obtain ⟨t', ht'⟩ := dropLastWhile_prefix_decomp
          (fun v => decide (v ∈ SUFFIXES))
          ((splitWords (pyLower x)).dropWhile (fun v => decide (v ∈ TITLES)))
        rw [hws] at ht'
        injection hcons with ha hs
        subst ha
        exact dropWhile_head_false _ (splitWords (pyLower x)) w (t ++ t')
          (by rw [ht', List.cons_append])
      have hS : dropLastWhile (fun v => decide (v ∈ SUFFIXES)) (w :: t) = w :: t := by
        rw [← hws]
        exact dropLastWhile_idem _ _
      rw [hnx]
      simp only [NameNormalizer.normalize, if_neg hne, hlow2, hsj, hT, hS]
